import Mathlib

/-!
Shallow embedding of the alpha-zero repository's core (MCTS engine,
batching inference scheduler, adaptive batch-size controller), with
theorems settling the specification claims.

Machine floats (`f32`) are idealized as real numbers (exact arithmetic,
`Real.sqrt` for `f32::sqrt`); a separate discrete model `F32` captures
NaN/infinity propagation where a claim is about non-finite values.
`usize` is `Nat` (no overflow is reachable under the stated hypotheses;
Rust release-mode subtraction on `usize` coincides with truncated `Nat`
subtraction at every subtraction the code performs).
-/

namespace AlphaZero

/- ===================================================================
   BatchSizeManager — src/alpha_zero/executor_scope.rs
   =================================================================== -/

/-- `BatchSizeManager` state (executor_scope.rs). The field `num_denom`
embeds the source field holding the hysteresis ratio `(num, denom)`. -/
structure BatchSizeManager where
  current_batch_size : Nat
  max_batch_size : Nat
  num_denom : Nat × Nat
deriving Repr, DecidableEq

namespace BatchSizeManager

/-- `BatchSizeManager::on_task_count_change` (executor_scope.rs lines 27-46),
returning the updated state together with the `Option<usize>` result. -/
def on_task_count_change (s : BatchSizeManager) (tasks : Nat) :
    BatchSizeManager × Option Nat :=
  let num := s.num_denom.1
  let denom := s.num_denom.2
  let upper_bound :=
    min ((s.current_batch_size * denom - 1) / num + 1) s.max_batch_size
  if upper_bound ≤ tasks then
    let new_batch_size := min tasks s.max_batch_size
    if new_batch_size ≠ s.current_batch_size then
      ({ s with current_batch_size := new_batch_size }, some new_batch_size)
    else
      (s, none)
  else if tasks < s.current_batch_size then
    let nb := max (s.current_batch_size * num / denom) 1
    ({ s with current_batch_size := nb }, some nb)
  else
    (s, none)

/-- `BatchSizeManager::change_max_batch_size` (executor_scope.rs lines 48-57). -/
def change_max_batch_size (s : BatchSizeManager) (m : Nat) :
    BatchSizeManager × Option Nat :=
  let s' := { s with max_batch_size := m }
  if m < s'.current_batch_size then
    ({ s' with current_batch_size := m }, some m)
  else
    (s', none)

/-- The code's `(x - 1) / n + 1` equals the ceiling `(x + n - 1) / n`
whenever `1 ≤ x` and `1 ≤ n`. -/
theorem pred_div_succ_eq_ceil (x n : Nat) (hx : 1 ≤ x) (hn : 1 ≤ n) :
    (x - 1) / n + 1 = (x + n - 1) / n := by
  have h1 : x + n - 1 = (x - 1) + n := by omega
  rw [h1, Nat.add_div_right _ (by omega)]

/-- C3: for every controller state with `current ≥ 1`, `max ≥ 1` and
hysteresis ratio `(num, denom)` with `1 ≤ num ≤ denom`,
`on_task_count_change tasks` leaves `current` equal to: with
`upper = min max ⌈current·denom/num⌉`, if `tasks ≥ upper` then
`min tasks max`; else if `tasks < current` then
`max (⌊current·num/denom⌋) 1`; else unchanged. -/
theorem on_task_count_change_current (s : BatchSizeManager) (tasks : Nat)
    (hc : 1 ≤ s.current_batch_size) (hm : 1 ≤ s.max_batch_size)
    (hn : 1 ≤ s.num_denom.1) (hd : s.num_denom.1 ≤ s.num_denom.2) :
    ((s.on_task_count_change tasks).1).current_batch_size =
      if min s.max_batch_size
          ((s.current_batch_size * s.num_denom.2 + s.num_denom.1 - 1) / s.num_denom.1)
          ≤ tasks then
        min tasks s.max_batch_size
      else if tasks < s.current_batch_size then
        max (s.current_batch_size * s.num_denom.1 / s.num_denom.2) 1
      else
        s.current_batch_size := by
  have hx : 1 ≤ s.current_batch_size * s.num_denom.2 :=
    Nat.one_le_iff_ne_zero.mpr (Nat.mul_ne_zero (by omega) (by omega))
  have hceil := pred_div_succ_eq_ceil (s.current_batch_size * s.num_denom.2)
    s.num_denom.1 hx hn
  simp only [on_task_count_change, hceil, Nat.min_comm]
  split
  · split
    · rfl
    · next h => exact (not_ne_iff.mp h).symm
  · split <;> rfl

/-- C3 witness: the state `{current = 100, max = 100, ratio = (5, 6)}` on
`on_task_count_change 80` shrinks `current` to `83`. -/
theorem on_task_count_change_current_witness :
    (1 ≤ (⟨100, 100, (5, 6)⟩ : BatchSizeManager).current_batch_size ∧
      1 ≤ (⟨100, 100, (5, 6)⟩ : BatchSizeManager).max_batch_size ∧
      1 ≤ (⟨100, 100, (5, 6)⟩ : BatchSizeManager).num_denom.1 ∧
      (⟨100, 100, (5, 6)⟩ : BatchSizeManager).num_denom.1 ≤
        (⟨100, 100, (5, 6)⟩ : BatchSizeManager).num_denom.2) ∧
    (((⟨100, 100, (5, 6)⟩ : BatchSizeManager).on_task_count_change 80).1).current_batch_size
      = 83 :=
  ⟨⟨by decide, by decide, by decide, by decide⟩, by
    rw [on_task_count_change_current (⟨100, 100, (5, 6)⟩ : BatchSizeManager) 80
      (by decide) (by decide) (by decide) (by decide)]
    decide⟩

/-- C8 counterexample: at `{current = 1, max = 100, ratio = (5, 6)}` with
`tasks = 0`, the shrink branch leaves `current` at its prior value `1` and
still returns `some 1`, contradicting the claim that every call leaving
`current` unchanged returns `none`. -/
theorem on_task_count_change_some_without_change :
    (((⟨1, 100, (5, 6)⟩ : BatchSizeManager).on_task_count_change 0).1).current_batch_size
        = (⟨1, 100, (5, 6)⟩ : BatchSizeManager).current_batch_size ∧
    ((⟨1, 100, (5, 6)⟩ : BatchSizeManager).on_task_count_change 0).2 = some 1 := by
  decide

/-- C8 amended: `on_task_count_change` returns `none` only when the state is
unchanged, and any returned `some v` equals the updated `current`; but the
shrink branch returns `some` of the new `current` even when it equals the
prior value (possible when `current` is at its floor of 1, or `num = denom`),
so `some` does not imply an actual change. -/
theorem on_task_count_change_return (s : BatchSizeManager) (tasks : Nat) :
    ((s.on_task_count_change tasks).2 = none → (s.on_task_count_change tasks).1 = s) ∧
    (∀ v, (s.on_task_count_change tasks).2 = some v →
      ((s.on_task_count_change tasks).1).current_batch_size = v) := by
  simp only [on_task_count_change]
  constructor
  · split
    · split <;> simp
    · split <;> simp
  · intro v
    split
    · split <;> simp_all
    · split <;> simp_all

/-- C10: under `current ≥ 1`, `max ≥ 1`, `1 ≤ num ≤ denom`, every call to
`on_task_count_change` (any task count, including 0) leaves `current ≥ 1`. -/
theorem on_task_count_change_pos (s : BatchSizeManager) (tasks : Nat)
    (hc : 1 ≤ s.current_batch_size) (hm : 1 ≤ s.max_batch_size)
    (hn : 1 ≤ s.num_denom.1) (hd : s.num_denom.1 ≤ s.num_denom.2) :
    1 ≤ ((s.on_task_count_change tasks).1).current_batch_size := by
  simp only [on_task_count_change]
  split
  · next h =>
    split
    · simp only
      have h2 : 1 ≤ tasks := le_trans (le_min (Nat.le_add_left 1 _) hm) h
      exact le_min h2 hm
    · exact hc
  · split
    · simp only
      omega
    · exact hc

/-- C10 witness: from `{current = 100, max = 100, ratio = (5, 6)}`,
`on_task_count_change 0` keeps `current ≥ 1`. -/
theorem on_task_count_change_pos_witness :
    (1 ≤ (⟨100, 100, (5, 6)⟩ : BatchSizeManager).current_batch_size ∧
      1 ≤ (⟨100, 100, (5, 6)⟩ : BatchSizeManager).max_batch_size ∧
      1 ≤ (⟨100, 100, (5, 6)⟩ : BatchSizeManager).num_denom.1 ∧
      (⟨100, 100, (5, 6)⟩ : BatchSizeManager).num_denom.1 ≤
        (⟨100, 100, (5, 6)⟩ : BatchSizeManager).num_denom.2) ∧
    1 ≤ (((⟨100, 100, (5, 6)⟩ : BatchSizeManager).on_task_count_change 0).1).current_batch_size :=
  ⟨⟨by decide, by decide, by decide, by decide⟩,
    on_task_count_change_pos (⟨100, 100, (5, 6)⟩ : BatchSizeManager) 0
      (by decide) (by decide) (by decide) (by decide)⟩

end BatchSizeManager

/- ===================================================================
   MCTS data model — src/alpha_zero/mcts.rs
   `f32` idealized as `ℝ`, `f32::sqrt` as `Real.sqrt`.
   =================================================================== -/

/-- `MoveDynamicInfo` (mcts.rs): per-edge statistics mutated by simulations. -/
structure MoveDynamicInfo where
  total_score : ℝ
  descends : Nat
deriving Inhabited

/-- `MoveStaticInfo` (mcts.rs): per-edge data fixed at expansion. -/
structure MoveStaticInfo where
  priority : ℝ
  player_switch : Bool
deriving Inhabited

/-- One entry of `NodeState.children`: child node arena index, static edge
info, dynamic edge info — the `(usize, MoveStaticInfo, MoveDynamicInfo)`
triple of the source. -/
abbrev ChildEntry := Nat × MoveStaticInfo × MoveDynamicInfo

/-- `NodeState` (mcts.rs). -/
structure NodeState where
  value : ℝ
  is_terminal : Bool
  children : List ChildEntry
deriving Inhabited

/-- `MonteCarloNode` (mcts.rs): a game state plus its lazily computed
`Option<NodeState>`. -/
structure MonteCarloNode (T : Type) where
  game_state : T
  node_state : Option NodeState

/-- The per-child score computed inside `NodeState::pick_next_move`
(mcts.rs lines 57-72): exploitation mean (0 when unvisited) plus
`c * priority * sqrt(total_visits) / (1 + total_visits)`. -/
noncomputable def childScore (c : ℝ) (tv : Nat) (ch : ChildEntry) : ℝ :=
  (if ch.2.2.descends ≠ 0 then ch.2.2.total_score / (ch.2.2.descends : ℝ) else 0)
    + c * ch.2.1.priority * Real.sqrt tv / ((1 + tv : ℕ) : ℝ)

/-- `total_visits` computed at the head of `pick_next_move` (mcts.rs
lines 49-54): the sum of `descends` over all children. -/
def NodeState.total_visits (s : NodeState) : Nat :=
  (s.children.map (fun ch => ch.2.2.descends)).sum

/-- One step of Rust's `Iterator::max_by` on `(score, index)` pairs: the
accumulator is kept only when it compares strictly greater, so equal
scores prefer the later element. On idealized reals `partial_cmp` is
total; NaN behaviour is treated separately in the `F32` model. -/
noncomputable def maxByStep (acc y : ℝ × Nat) : ℝ × Nat :=
  if y.1 < acc.1 then acc else y

/-- Rust's `max_by` over a list of `(score, index)` pairs:
`none` on an empty list, otherwise a fold from the first element. -/
noncomputable def maxByLast : List (ℝ × Nat) → Option (ℝ × Nat)
  | [] => none
  | x :: xs => some (xs.foldl maxByStep x)

/-- `NodeState::pick_next_move` (mcts.rs lines 48-82): score every child,
enumerate, swap to `(score, index)`, take `max_by`, unwrap, project the
index. The unreachable `unwrap` on an empty children list is modelled by
the `getD` default. -/
noncomputable def NodeState.pick_next_move (s : NodeState) (c : ℝ) : Nat :=
  ((maxByLast (((s.children.map (childScore c s.total_visits)).enum).map
      (fun p => (p.2, p.1)))).getD (0, 0)).2

/-- The score `pick_next_move` assigns to child `i` (out-of-range indices
read a default child entry). -/
noncomputable def NodeState.score (s : NodeState) (c : ℝ) (i : Nat) : ℝ :=
  childScore c s.total_visits (s.children.getD i default)

/-- Modelled from the spec (claim C1's formula, for refinement comparison
only — not a translation of the source): the PUCT score whose exploration
denominator is `1 + e.visits`, the candidate edge's own visit count. -/
noncomputable def specChildScore (c : ℝ) (tv : Nat) (ch : ChildEntry) : ℝ :=
  (if ch.2.2.descends ≠ 0 then ch.2.2.total_score / (ch.2.2.descends : ℝ) else 0)
    + c * ch.2.1.priority * Real.sqrt tv / ((1 + ch.2.2.descends : ℕ) : ℝ)

/-- The claim-side score of child `i` (see `specChildScore`). -/
noncomputable def NodeState.spec_score (s : NodeState) (c : ℝ) (i : Nat) : ℝ :=
  specChildScore c s.total_visits (s.children.getD i default)

/- ============ fold lemmas for `max_by` ============ -/

/-- The `(score, index)` list built inside `pick_next_move`, abstractly:
index `i` carries score `g i` (generic in the score type: instantiated at
`ℝ` for the idealized model and at `F32` for the NaN-aware model). -/
def scorePairs {α : Type} (g : Nat → α) (n : Nat) : List (α × Nat) :=
  (List.range n).map (fun i => (g i, i))

theorem maxByLast_snoc (l : List (ℝ × Nat)) (w z : ℝ × Nat)
    (h : maxByLast l = some w) :
    maxByLast (l ++ [z]) = some (maxByStep w z) := by
  match l with
  | [] => simp [maxByLast] at h
  | x :: xs =>
    simp only [maxByLast, Option.some.injEq] at h
    simp [maxByLast, List.foldl_append, h]

/-- `max_by` over `(g 0, 0), …, (g (n-1), n-1)` returns a pair `(g m, m)`
where `m` is the last index attaining the maximal score. -/
theorem maxByLast_scorePairs (g : Nat → ℝ) :
    ∀ n, 1 ≤ n →
      ∃ m, maxByLast (scorePairs g n) = some (g m, m) ∧ m < n ∧
        (∀ i, i < n → g i ≤ g m) ∧ (∀ j, m < j → j < n → g j < g m) := by
  intro n
  induction n with
  | zero => omega
  | succ k ih =>
    intro _
    by_cases hk : 1 ≤ k
    · obtain ⟨m, heq, hlt, hmax, hlast⟩ := ih hk
      have hsnoc : scorePairs g (k + 1) = scorePairs g k ++ [(g k, k)] := by
        simp [scorePairs, List.range_succ]
      by_cases hc : g k < g m
      · refine ⟨m, ?_, by omega, ?_, ?_⟩
        · rw [hsnoc, maxByLast_snoc _ _ _ heq]
          simp [maxByStep, hc]
        · intro i hi
          rcases Nat.lt_succ_iff_lt_or_eq.mp hi with h | h
          · exact hmax i h
          · exact h ▸ hc.le
        · intro j hj1 hj2
          rcases Nat.lt_succ_iff_lt_or_eq.mp hj2 with h | h
          · exact hlast j hj1 h
          · exact h ▸ hc
      · refine ⟨k, ?_, by omega, ?_, ?_⟩
        · rw [hsnoc, maxByLast_snoc _ _ _ heq]
          simp [maxByStep, hc]
        · intro i hi
          rcases Nat.lt_succ_iff_lt_or_eq.mp hi with h | h
          · exact le_trans (hmax i h) (not_lt.mp hc)
          · exact h ▸ le_refl _
        · intro j hj1 hj2
          omega
    · have hk0 : k = 0 := by omega
      subst hk0
      refine ⟨0, ?_, by omega, ?_, ?_⟩
      · have h1 : List.range 1 = [0] := rfl
        simp [scorePairs, h1, maxByLast]
      · intro i hi
        interval_cases i
        exact le_refl _
      · intro j hj1 hj2
        omega

/-- The concrete `(score, index)` list of `pick_next_move` is `scorePairs`
of `NodeState.score`. -/
theorem pick_list_eq_scorePairs (s : NodeState) (c : ℝ) :
    ((s.children.map (childScore c s.total_visits)).enum).map (fun p => (p.2, p.1))
      = scorePairs (s.score c) s.children.length := by
  apply List.ext_getElem
  · simp [scorePairs]
  · intro i h1 h2
    have hi : i < s.children.length := by simpa [scorePairs] using h2
    simp [scorePairs, NodeState.score, List.getD_eq_getElem?_getD,
      List.getElem?_eq_getElem hi]

/- ============ C1 and C7: selection theorems ============ -/

/-- C1 amended: at every non-terminal expanded node, the child selected by
`pick_next_move` is one maximizing
`score(e) = (e.visits > 0 ? e.cumulative_score / e.visits : 0)
  + c_puct * e.prior * sqrt(parent_total_visits) / (1 + parent_total_visits)`:
the exploration term's denominator is 1 plus the PARENT total visit count,
not 1 plus the candidate edge's own visit count. -/
theorem pick_next_move_maximizes (s : NodeState) (c : ℝ) (h : s.children ≠ []) :
    s.pick_next_move c < s.children.length ∧
    ∀ i, i < s.children.length → s.score c i ≤ s.score c (s.pick_next_move c) := by
  have hn : 1 ≤ s.children.length := List.length_pos.mpr h
  obtain ⟨m, heq, hlt, hmax, _⟩ := maxByLast_scorePairs (s.score c) _ hn
  have hp : s.pick_next_move c = m := by
    unfold NodeState.pick_next_move
    rw [pick_list_eq_scorePairs, heq]
    rfl
  rw [hp]
  exact ⟨hlt, hmax⟩

/-- C1 witness: on a single-child node, the selected child maximizes the
code's score. -/
noncomputable def wNode : NodeState :=
  { value := 0, is_terminal := false, children := [(1, ⟨1, false⟩, ⟨0, 0⟩)] }

theorem pick_next_move_maximizes_witness :
    wNode.children ≠ [] ∧
    (wNode.pick_next_move 1 < wNode.children.length ∧
      ∀ i, i < wNode.children.length →
        wNode.score 1 i ≤ wNode.score 1 (wNode.pick_next_move 1)) :=
  ⟨by simp [wNode], pick_next_move_maximizes wNode 1 (by simp [wNode])⟩

/-- C1 counterexample: with `c_puct = 1` and children
`[(prior 0, score 9, visits 9), (prior 1, score 0, visits 0)]`
(`parent_total_visits = 9`, `sqrt 9 = 3`), the code picks child 0
(code scores `1` vs `3/10`), but under the claim's formula (denominator
`1 + e.visits`) child 1 scores `3 > 1`, so the picked child does not
maximize the claim's score. -/
noncomputable def cexC1 : NodeState :=
  { value := 0, is_terminal := false,
    children := [(1, ⟨0, false⟩, ⟨9, 9⟩), (2, ⟨1, false⟩, ⟨0, 0⟩)] }

theorem pick_next_move_not_spec_maximal :
    cexC1.pick_next_move 1 = 0 ∧ cexC1.spec_score 1 0 < cexC1.spec_score 1 1 := by
  have hs9 : Real.sqrt 9 = 3 := by
    rw [show (9 : ℝ) = 3 ^ 2 by norm_num, Real.sqrt_sq (by norm_num : (0:ℝ) ≤ 3)]
  have htv : cexC1.total_visits = 9 := by
    simp [cexC1, NodeState.total_visits]
  have h0 : cexC1.score 1 0 = 1 := by
    rw [NodeState.score, htv]
    norm_num [cexC1, childScore, hs9]
  have h1 : cexC1.score 1 1 = 3 / 10 := by
    rw [NodeState.score, htv]
    norm_num [cexC1, childScore, hs9]
  have hr2 : List.range 2 = [0, 1] := rfl
  have hlen : cexC1.children.length = 2 := by simp [cexC1]
  refine ⟨?_, ?_⟩
  · unfold NodeState.pick_next_move
    rw [pick_list_eq_scorePairs, hlen]
    simp only [scorePairs, hr2, List.map_cons, List.map_nil, maxByLast,
      List.foldl_cons, List.foldl_nil, maxByStep]
    rw [if_pos (by rw [h0, h1]; norm_num)]
    rfl
  · have hsp0 : cexC1.spec_score 1 0 = 1 := by
      rw [NodeState.spec_score, htv]
      norm_num [cexC1, specChildScore, hs9]
    have hsp1 : cexC1.spec_score 1 1 = 3 := by
      rw [NodeState.spec_score, htv]
      norm_num [cexC1, specChildScore, hs9]
    rw [hsp0, hsp1]
    norm_num

/-- C7 amended: `pick_next_move` selects the LAST index attaining the
maximal score (Rust's `max_by` keeps the later element on ties), not the
first: the result maximizes the score and every strictly later child
scores strictly less. -/
theorem pick_next_move_last_maximal (s : NodeState) (c : ℝ) (h : s.children ≠ []) :
    s.pick_next_move c < s.children.length ∧
    (∀ i, i < s.children.length → s.score c i ≤ s.score c (s.pick_next_move c)) ∧
    (∀ j, s.pick_next_move c < j → j < s.children.length →
      s.score c j < s.score c (s.pick_next_move c)) := by
  have hn : 1 ≤ s.children.length := List.length_pos.mpr h
  obtain ⟨m, heq, hlt, hmax, hlast⟩ := maxByLast_scorePairs (s.score c) _ hn
  have hp : s.pick_next_move c = m := by
    unfold NodeState.pick_next_move
    rw [pick_list_eq_scorePairs, heq]
    rfl
  rw [hp]
  exact ⟨hlt, hmax, hlast⟩

theorem pick_next_move_last_maximal_witness :
    wNode.children ≠ [] ∧
    (wNode.pick_next_move 2 < wNode.children.length ∧
      (∀ i, i < wNode.children.length →
        wNode.score 2 i ≤ wNode.score 2 (wNode.pick_next_move 2)) ∧
      (∀ j, wNode.pick_next_move 2 < j → j < wNode.children.length →
        wNode.score 2 j < wNode.score 2 (wNode.pick_next_move 2))) :=
  ⟨by simp [wNode], pick_next_move_last_maximal wNode 2 (by simp [wNode])⟩

/-- C7 counterexample: two children with identical static and dynamic
edges (`prior 1/2`, never visited) tie at score 0, and the code selects
index 1, not the first maximal index 0. -/
noncomputable def cexC7 : NodeState :=
  { value := 0, is_terminal := false,
    children := [(1, ⟨1/2, false⟩, ⟨0, 0⟩), (2, ⟨1/2, false⟩, ⟨0, 0⟩)] }

theorem pick_next_move_tie_picks_last :
    cexC7.score 1 0 = cexC7.score 1 1 ∧ cexC7.pick_next_move 1 = 1 := by
  have htv : cexC7.total_visits = 0 := by
    simp [cexC7, NodeState.total_visits]
  have h0 : cexC7.score 1 0 = 0 := by
    rw [NodeState.score, htv]
    norm_num [cexC7, childScore, Real.sqrt_zero]
  have h1 : cexC7.score 1 1 = 0 := by
    rw [NodeState.score, htv]
    norm_num [cexC7, childScore, Real.sqrt_zero]
  have hr2 : List.range 2 = [0, 1] := rfl
  have hlen : cexC7.children.length = 2 := by simp [cexC7]
  refine ⟨by rw [h0, h1], ?_⟩
  unfold NodeState.pick_next_move
  rw [pick_list_eq_scorePairs, hlen]
  simp only [scorePairs, hr2, List.map_cons, List.map_nil, maxByLast,
    List.foldl_cons, List.foldl_nil, maxByStep]
  rw [if_neg (by rw [h0, h1]; exact lt_irrefl 0)]
  rfl

/- ===================================================================
   C6: MonteCarloNode::get_state — mcts.rs lines 31-44
   =================================================================== -/

/-- `MonteCarloNode::get_state` (mcts.rs lines 31-44): if `node_state`
already exists, return `None` without running `calc_state`; otherwise run
it, store the produced `NodeState`, and return the additional data. -/
def MonteCarloNode.get_state {T A : Type} (node : MonteCarloNode T)
    (calc_state : T → NodeState × A) : MonteCarloNode T × Option A :=
  if node.node_state.isSome then (node, none)
  else
    let sa := calc_state node.game_state
    ({ node with node_state := some sa.1 }, some sa.2)

/-- C6: `get_state` is idempotent — on a node whose `NodeState` already
exists, any second expansion attempt returns `(node, none)` for EVERY
`calc_state`: the closure (and hence the Model) is never invoked, and the
node, including its existing `NodeState`, is returned unchanged. -/
theorem get_state_idempotent {T A : Type} (node : MonteCarloNode T)
    (h : node.node_state.isSome) (calc_state : T → NodeState × A) :
    node.get_state calc_state = (node, none) := by
  unfold MonteCarloNode.get_state
  rw [if_pos h]

/-- C6 witness: a concrete already-expanded node with a concrete closure. -/
theorem get_state_idempotent_witness :
    (⟨7, some default⟩ : MonteCarloNode Nat).node_state.isSome ∧
    MonteCarloNode.get_state (⟨7, some default⟩ : MonteCarloNode Nat)
        (fun g => (default, g)) = (⟨7, some default⟩, none) :=
  ⟨rfl, get_state_idempotent (⟨7, some default⟩ : MonteCarloNode Nat) rfl
    (fun g => (default, g))⟩

/- ===================================================================
   C5: MonteCarloTree::get_next_state — mcts.rs lines 216-218
   =================================================================== -/

instance {T : Type} [Inhabited T] : Inhabited (MonteCarloNode T) :=
  ⟨⟨default, none⟩⟩

/-- `MonteCarloTree` (mcts.rs): an arena of nodes. The executor handle is
abstracted away (simulations take the evaluation oracle as an argument). -/
structure MonteCarloTree (T : Type) where
  nodes : Array (MonteCarloNode T)

/-- `MonteCarloTree::get_next_state` (mcts.rs lines 216-218): a pure read
(`&self`) returning the arena index stored in child `move_id` of node
`state`. The source's `unwrap`/indexing panics on malformed input are
modelled by `getD` defaults. -/
def MonteCarloTree.get_next_state {T : Type} [Inhabited T]
    (t : MonteCarloTree T) (state move_id : Nat) : Nat :=
  (((t.nodes.getD state default).node_state.getD default).children.getD
    move_id default).1

/-- The caller-side "advance" step (generate_game.rs:
`state_id = tree.get_next_state(state_id, move)`): the tree value is
carried over unchanged next to the new root index. -/
def MonteCarloTree.advance {T : Type} [Inhabited T]
    (t : MonteCarloTree T) (state move_id : Nat) : MonteCarloTree T × Nat :=
  (t, t.get_next_state state move_id)

/-- C5 amended: advancing returns the arena index of child `move_id` as
the new root and leaves the tree entirely unchanged — every node (hence
every sibling subtree and every accumulated `visits`/`cumulative_score`)
is retained in the arena; no memory is reclaimed. -/
theorem advance_frame {T : Type} [Inhabited T]
    (t : MonteCarloTree T) (state move_id : Nat) :
    (t.advance state move_id).2 = t.get_next_state state move_id ∧
    (t.advance state move_id).1.nodes.size = t.nodes.size ∧
    ∀ j, (t.advance state move_id).1.nodes.getD j default = t.nodes.getD j default :=
  ⟨rfl, rfl, fun _ => rfl⟩

/-- C5 counterexample: a three-node arena (root plus two children). After
`advance` to child 0 (new root = index 1), the sibling subtree at index 2
is still present and unchanged, and the arena still holds all 3 nodes —
contradicting the claim that every sibling subtree is dropped and its
memory reclaimed. -/
noncomputable def cexTree : MonteCarloTree Nat :=
  { nodes := #[
      ⟨0, some ⟨1/2, false, [(1, ⟨1/2, true⟩, ⟨2, 3⟩), (2, ⟨1/2, false⟩, ⟨4, 5⟩)]⟩⟩,
      ⟨1, none⟩,
      ⟨2, none⟩] }

theorem advance_keeps_siblings :
    cexTree.advance 0 0 = (cexTree, 1) ∧
    cexTree.nodes.size = 3 ∧
    (cexTree.advance 0 0).1.nodes.getD 2 default = (⟨2, none⟩ : MonteCarloNode Nat) :=
  ⟨rfl, rfl, rfl⟩

/- ===================================================================
   C2: MonteCarloTree::do_simulations — mcts.rs lines 112-202
   =================================================================== -/

/-- `TerminationState` (game.rs). -/
inductive TerminationState (M : Type) where
  | Terminal (v : ℝ)
  | Moves (moves : List M)

/-- The `Game` and `MoveParameters` traits (game.rs) as one capability
record: `get_state`, `make_move`, and the move's `is_player_switch` flag. -/
structure GameM (T M : Type) where
  get_state : T → TerminationState M
  make_move : T → M → T
  is_player_switch : M → Bool

/-- The closure passed to `MonteCarloNode::get_state` inside
`do_simulations` (mcts.rs lines 116-160). The executor round-trip plus
adapter (`executor.execute ∘ convert_game_to_nn_input`, then
`get_estimated_policy`) is abstracted as the oracle
`eval : T → ℝ × List ℝ` returning the value and the per-move priors.
Terminal states yield `{value, terminal, no children}` with empty move
list; otherwise one child per legal move, child arena indices starting at
`nodes_cnt`, dynamic statistics zero-initialized. -/
noncomputable def calcState {T M : Type} (G : GameM T M) (eval : T → ℝ × List ℝ)
    (nodes_cnt : Nat) (g : T) : NodeState × List M :=
  match G.get_state g with
  | .Terminal val => (⟨val, true, []⟩, [])
  | .Moves moves =>
      let vp := eval g
      (⟨vp.1, false,
        ((moves.zip vp.2).enum).map (fun q =>
          (nodes_cnt + q.1, ⟨q.2.2, G.is_player_switch q.2.1⟩, ⟨0, 0⟩))⟩,
        moves)

/-- One simulation's descent (the inner `loop` of `do_simulations`,
mcts.rs lines 112-188), with explicit fuel for termination: expand the
current node if needed (pushing one fresh child node per legal move),
stop at a newly expanded or terminal node returning its value and the
traversed `(node, edge)` stack, else select a child by `pick_next_move`
and descend. `none` only when fuel runs out (unreachable for well-formed
trees, whose child indices strictly increase). -/
noncomputable def simulate {T M : Type} [Inhabited T] (G : GameM T M)
    (eval : T → ℝ × List ℝ) (cpuct : ℝ) :
    Nat → MonteCarloTree T → Nat → List (Nat × Nat) →
      Option (MonteCarloTree T × ℝ × List (Nat × Nat))
  | 0, _, _, _ => none
  | fuel + 1, t, cur, stack =>
      let nodes_cnt := t.nodes.size
      let res := (t.nodes.getD cur default).get_state (calcState G eval nodes_cnt)
      let node' := res.1
      let t' : MonteCarloTree T := ⟨t.nodes.setD cur node'⟩
      let ns := node'.node_state.getD default
      match res.2 with
      | some moves =>
          let t'' : MonteCarloTree T :=
            ⟨moves.foldl (fun a m => a.push ⟨G.make_move node'.game_state m, none⟩)
              t'.nodes⟩
          some (t'', ns.value, stack)
      | none =>
          if ns.is_terminal then some (t', ns.value, stack)
          else
            simulate G eval cpuct fuel t'
              ((ns.children.getD (ns.pick_next_move cpuct) default).1)
              ((cur, ns.pick_next_move cpuct) :: stack)

/-- The backup unwind (`while let Some((state, move)) = state_stack.pop()`,
mcts.rs lines 190-200): pop each traversed edge; if its `player_switch`
flag is set, invert the running value (`v := 1 - v`); then add the
(possibly inverted) value into `total_score` and increment `descends`. -/
noncomputable def backup {T : Type} [Inhabited T] :
    List (Nat × Nat) → ℝ → Array (MonteCarloNode T) → Array (MonteCarloNode T)
  | [], _, nodes => nodes
  | (st, mv) :: rest, v, nodes =>
      let node := nodes.getD st default
      let ns := node.node_state.getD default
      let ch := ns.children.getD mv default
      let v' := if ch.2.1.player_switch then 1 - v else v
      let newch : ChildEntry :=
        (ch.1, ch.2.1, ⟨ch.2.2.total_score + v', ch.2.2.descends + 1⟩)
      backup rest v'
        (nodes.setD st ⟨node.game_state,
          some ⟨ns.value, ns.is_terminal, ns.children.set mv newch⟩⟩)

/-- `MonteCarloTree::do_simulations` (mcts.rs lines 112-202): `n`
simulations from node index `state`, each descent followed by the backup
unwind of its path stack. -/
noncomputable def do_simulations {T M : Type} [Inhabited T] (G : GameM T M)
    (eval : T → ℝ × List ℝ) (cpuct : ℝ) (state : Nat) :
    Nat → MonteCarloTree T → Option (MonteCarloTree T)
  | 0, t => some t
  | n + 1, t =>
      match simulate G eval cpuct (t.nodes.size + 1) t state [] with
      | none => none
      | some (t', v, stack) =>
          do_simulations G eval cpuct state n ⟨backup stack v t'.nodes⟩

/-- The synthetic two-ply game of claim C2: the root (`false`) has exactly
one move, flagged `perspective_switch = true`, leading to the terminal
state (`true`) of value `v`. -/
def twoPly (v : ℝ) : GameM Bool Unit :=
  { get_state := fun b => match b with
      | true => .Terminal v
      | false => .Moves [()]
    make_move := fun _ _ => true
    is_player_switch := fun _ => true }

/-- The fresh one-node tree over the two-ply game's root. -/
noncomputable def twoPlyTree : MonteCarloTree Bool := ⟨#[⟨false, none⟩]⟩

set_option maxHeartbeats 2000000 in
/-- C2: on the two-ply game whose single root move has
`perspective_switch = true` and leads to terminal value `v` (network
oracle returning value `q` and prior `[p]`), two simulations from a fresh
tree (the first expands the root, the second reaches the terminal and
backs up through the flagged edge) leave the root edge with
`cumulative_score = 1 - v` and `visits = 1`: the running backup value is
inverted before being added. -/
theorem do_simulations_perspective_flip (v q p c : ℝ) :
    ∃ t', do_simulations (twoPly v) (fun _ => (q, [p])) c 0 2 twoPlyTree = some t' ∧
      (((t'.nodes.getD 0 default).node_state.getD default).children.getD 0 default).2.2
        = ⟨1 - v, 1⟩ := by
  refine ⟨⟨#[⟨false, some ⟨q, false, [(1, ⟨p, true⟩, ⟨0 + (1 - v), 0 + 1⟩)]⟩⟩,
    ⟨true, some ⟨v, true, []⟩⟩]⟩, rfl, ?_⟩
  show (⟨0 + (1 - v), 0 + 1⟩ : MoveDynamicInfo) = ⟨1 - v, 1⟩
  rw [zero_add]

/- ===================================================================
   C9: non-finite scores in `pick_next_move` — a discrete f32 model.
   Finite values are idealized as exact rationals (overflow to infinity
   is not modelled); NaN and signed infinities are explicit, with IEEE
   propagation and `partial_cmp` returning `none` exactly when a NaN is
   involved.
   =================================================================== -/

/-- An `f32` value: NaN, a signed infinity (`true` = positive), or a
finite value idealized as an exact rational. -/
inductive F32 where
  | nan : F32
  | inf : Bool → F32
  | fin : ℚ → F32
deriving DecidableEq, Repr

instance : Inhabited F32 := ⟨.fin 0⟩

/-- IEEE multiplication on the `F32` model: NaN propagates;
`inf * 0 = NaN`; signs multiply. -/
def F32.mul : F32 → F32 → F32
  | nan, _ => nan
  | _, nan => nan
  | inf s, inf t => inf (s == t)
  | inf s, fin q => if q = 0 then nan else inf (s == decide (0 < q))
  | fin q, inf s => if q = 0 then nan else inf (s == decide (0 < q))
  | fin a, fin b => fin (a * b)

/-- IEEE division on the `F32` model: NaN propagates; `inf / inf = NaN`;
`x / inf = 0`; `a / 0` is NaN at `a = 0` and a signed infinity otherwise
(negative zero is not modelled). -/
def F32.div : F32 → F32 → F32
  | nan, _ => nan
  | _, nan => nan
  | inf _, inf _ => nan
  | inf s, fin q => if q < 0 then inf (!s) else inf s
  | fin _, inf _ => fin 0
  | fin a, fin b =>
      if b = 0 then (if a = 0 then nan else inf (decide (0 < a))) else fin (a / b)

/-- IEEE addition on the `F32` model: NaN propagates;
`inf + (-inf) = NaN`. -/
def F32.add : F32 → F32 → F32
  | nan, _ => nan
  | _, nan => nan
  | inf s, inf t => if s = t then inf s else nan
  | inf s, fin _ => inf s
  | fin _, inf s => inf s
  | fin a, fin b => fin (a + b)

/-- `f32::partial_cmp`: `none` exactly when one operand is NaN. -/
def F32.pcmp : F32 → F32 → Option Ordering
  | nan, _ => none
  | _, nan => none
  | inf s, inf t =>
      some (if s = t then Ordering.eq else if t then Ordering.lt else Ordering.gt)
  | inf s, fin _ => some (if s then Ordering.gt else Ordering.lt)
  | fin _, inf t => some (if t then Ordering.lt else Ordering.gt)
  | fin a, fin b =>
      some (if a < b then Ordering.lt else if b < a then Ordering.gt else Ordering.eq)

/-- `x.isNaN`. -/
def F32.isNaN : F32 → Bool
  | nan => true
  | _ => false

/-- `x.is_finite()`. -/
def F32.isFinite : F32 → Bool
  | fin _ => true
  | _ => false

/-- `f32::sqrt(total_visits as f32)` for a `usize` total: always a finite
nonnegative value; modelled exactly on perfect squares and by the integer
square root otherwise (the exact value is irrelevant to the NaN/panic
analysis, which only needs finiteness and sign). -/
def sqrtNat (n : Nat) : F32 := .fin (Nat.sqrt n)

/-- `MoveDynamicInfo` over the `F32` model. -/
structure MoveDynamicInfoF where
  total_score : F32
  descends : Nat
deriving DecidableEq, Inhabited

/-- `MoveStaticInfo` over the `F32` model. -/
structure MoveStaticInfoF where
  priority : F32
  player_switch : Bool
deriving DecidableEq, Inhabited

/-- `NodeState` over the `F32` model. -/
structure NodeStateF where
  value : F32
  is_terminal : Bool
  children : List (Nat × MoveStaticInfoF × MoveDynamicInfoF)
deriving DecidableEq, Inhabited

/-- The per-child score of `pick_next_move` over the `F32` model
(mcts.rs lines 57-72). -/
def childScoreF (c : F32) (tv : Nat) (ch : Nat × MoveStaticInfoF × MoveDynamicInfoF) :
    F32 :=
  F32.add
    (if ch.2.2.descends ≠ 0 then F32.div ch.2.2.total_score (.fin ch.2.2.descends)
     else .fin 0)
    (F32.div (F32.mul (F32.mul c ch.2.1.priority) (sqrtNat tv)) (.fin (1 + tv)))

/-- `total_visits` over the `F32` model. -/
def NodeStateF.total_visits (s : NodeStateF) : Nat :=
  (s.children.map (fun ch => ch.2.2.descends)).sum

/-- One `max_by` comparator step over the `F32` model: the
`panic!("Failed to compare ...")` on an incomparable pair (a NaN operand)
is `Except.error ()`; otherwise the accumulator is kept only on
`Ordering::Greater`. -/
def maxByStepF (acc y : F32 × Nat) : Except Unit (F32 × Nat) :=
  match F32.pcmp acc.1 y.1 with
  | none => .error ()
  | some Ordering.gt => .ok acc
  | some Ordering.lt => .ok y
  | some Ordering.eq => .ok y

/-- `max_by` + final `.unwrap()` over a `(score, index)` list: an empty
list makes `max_by` return `None` and the `unwrap` panic (also
`Except.error ()`); otherwise fold from the first element, panicking on
any incomparable pair. -/
def pickFromPairsF : List (F32 × Nat) → Except Unit Nat
  | [] => .error ()
  | x :: xs => (xs.foldlM maxByStepF x).map (fun r => r.2)

/-- `NodeState::pick_next_move` over the `F32` model. -/
def NodeStateF.pick_next_move (s : NodeStateF) (c : F32) : Except Unit Nat :=
  pickFromPairsF (((s.children.map (childScoreF c s.total_visits)).enum).map
    (fun p => (p.2, p.1)))

/-- The `F32` score of child `i`. -/
def NodeStateF.score (s : NodeStateF) (c : F32) (i : Nat) : F32 :=
  childScoreF c s.total_visits (s.children.getD i default)

theorem pcmp_nan_left (b : F32) : F32.pcmp .nan b = none := by
  cases b <;> rfl

theorem pcmp_nan_right (a : F32) : F32.pcmp a .nan = none := by
  cases a <;> rfl

theorem pcmp_some_of_not_nan (a b : F32) (ha : a ≠ .nan) (hb : b ≠ .nan) :
    ∃ o, F32.pcmp a b = some o := by
  cases a <;> cases b <;> simp [F32.pcmp] at *

theorem maxByStepF_ok (acc y : F32 × Nat) (h1 : acc.1 ≠ .nan) (h2 : y.1 ≠ .nan) :
    maxByStepF acc y = .ok acc ∨ maxByStepF acc y = .ok y := by
  obtain ⟨o, ho⟩ := pcmp_some_of_not_nan acc.1 y.1 h1 h2
  unfold maxByStepF
  rw [ho]
  cases o
  · right; rfl
  · right; rfl
  · left; rfl

theorem foldlM_ok_of_no_nan (xs : List (F32 × Nat)) :
    ∀ acc : F32 × Nat, acc.1 ≠ .nan → (∀ y ∈ xs, y.1 ≠ .nan) →
      ∃ r, xs.foldlM maxByStepF acc = .ok r := by
  induction xs with
  | nil =>
    intro acc _ _
    exact ⟨acc, rfl⟩
  | cons y ys ih =>
    intro acc hacc hall
    have hy : y.1 ≠ .nan := hall y (List.mem_cons_self y ys)
    have hys : ∀ z ∈ ys, z.1 ≠ .nan := fun z hz => hall z (List.mem_cons_of_mem y hz)
    rcases maxByStepF_ok acc y hacc hy with h | h
    · obtain ⟨r, hr⟩ := ih acc hacc hys
      exact ⟨r, by rw [List.foldlM_cons, h]; exact hr⟩
    · obtain ⟨r, hr⟩ := ih y hy hys
      exact ⟨r, by rw [List.foldlM_cons, h]; exact hr⟩

theorem foldlM_error_of_nan (xs : List (F32 × Nat)) :
    ∀ acc : F32 × Nat,
      (acc.1 = .nan ∧ xs ≠ []) ∨ (∃ y ∈ xs, y.1 = .nan) →
      xs.foldlM maxByStepF acc = .error () := by
  induction xs with
  | nil =>
    intro acc h
    rcases h with ⟨_, hne⟩ | ⟨y, hy, _⟩
    · exact absurd rfl hne
    · exact absurd hy (List.not_mem_nil y)
  | cons y ys ih =>
    intro acc h
    by_cases hacc : acc.1 = .nan
    · have hstep : F32.pcmp acc.1 y.1 = none := by rw [hacc]; exact pcmp_nan_left y.1
      have hstep2 : maxByStepF acc y = .error () := by
        unfold maxByStepF
        rw [hstep]
      rw [List.foldlM_cons, hstep2]
      rfl
    · by_cases hy : y.1 = .nan
      · have hstep : F32.pcmp acc.1 y.1 = none := by
          rw [hy]; exact pcmp_nan_right acc.1
        have hstep2 : maxByStepF acc y = .error () := by
          unfold maxByStepF
          rw [hstep]
        rw [List.foldlM_cons, hstep2]
        rfl
      · have hys : ∃ z ∈ ys, z.1 = .nan := by
          rcases h with ⟨h1, _⟩ | ⟨z, hz, hzn⟩
          · exact absurd h1 hacc
          · rcases List.mem_cons.mp hz with rfl | hz'
            · exact absurd hzn hy
            · exact ⟨z, hz', hzn⟩
        rcases maxByStepF_ok acc y hacc hy with hs | hs <;>
          rw [List.foldlM_cons, hs] <;>
          exact ih _ (Or.inr hys)

/-- The concrete `(score, index)` list of the `F32` `pick_next_move` is
`scorePairs` of `NodeStateF.score`. -/
theorem pickF_list_eq_scorePairs (s : NodeStateF) (c : F32) :
    ((s.children.map (childScoreF c s.total_visits)).enum).map (fun p => (p.2, p.1))
      = scorePairs (s.score c) s.children.length := by
  apply List.ext_getElem
  · simp [scorePairs]
  · intro i h1 h2
    have hi : i < s.children.length := by simpa [scorePairs] using h2
    simp [scorePairs, NodeStateF.score, List.getD_eq_getElem?_getD,
      List.getElem?_eq_getElem hi]

/-- C9 amended: `pick_next_move` halts the search with the comparator's
fatal assertion exactly when the node has at least two children and some
computed score is NaN; a non-finite but non-NaN (infinite) score compares
normally, and a NaN score at a single-child node is never compared, so in
both of those cases selection returns normally. -/
theorem pick_next_move_f32_error_iff (s : NodeStateF) (c : F32)
    (h : s.children ≠ []) :
    s.pick_next_move c = .error () ↔
      (2 ≤ s.children.length ∧
        ∃ i, i < s.children.length ∧ s.score c i = .nan) := by
  have hn : 1 ≤ s.children.length := List.length_pos.mpr h
  obtain ⟨k, hk⟩ : ∃ k, s.children.length = k + 1 := ⟨s.children.length - 1, by omega⟩
  have hpairs : scorePairs (s.score c) (k + 1)
      = (s.score c 0, 0) :: (List.range k).map (fun i => (s.score c (i + 1), i + 1)) := by
    simp [scorePairs, List.range_succ_eq_map, List.map_map, Function.comp_def]
  have hpick : s.pick_next_move c
      = pickFromPairsF ((s.score c 0, 0) ::
          (List.range k).map (fun i => (s.score c (i + 1), i + 1))) := by
    rw [NodeStateF.pick_next_move, pickF_list_eq_scorePairs, hk, hpairs]
  rw [hpick, hk]
  constructor
  · intro herr
    by_contra hcon
    push_neg at hcon
    by_cases h2 : 2 ≤ k + 1
    · have hno : ∀ i, i < k + 1 → s.score c i ≠ .nan := hcon h2
      have hok := foldlM_ok_of_no_nan
        ((List.range k).map (fun i => (s.score c (i + 1), i + 1)))
        (s.score c 0, 0) (hno 0 (by omega)) ?_
      · obtain ⟨r, hr⟩ := hok
        rw [pickFromPairsF, hr] at herr
        simp [Except.map] at herr
      · intro y hy
        simp only [List.mem_map, List.mem_range] at hy
        obtain ⟨i, hi, rfl⟩ := hy
        exact hno (i + 1) (by omega)
    · have hk0 : k = 0 := by omega
      subst hk0
      rw [pickFromPairsF] at herr
      simp [List.foldlM_nil, Except.map, pure, Except.pure] at herr
  · rintro ⟨h2, i, hi, hnan⟩
    have hkpos : 1 ≤ k := by omega
    have htail : (List.range k).map (fun i => (s.score c (i + 1), i + 1)) ≠ [] := by
      intro hnil
      have hlen := congrArg List.length hnil
      simp at hlen
      omega
    rw [pickFromPairsF]
    rcases Nat.eq_zero_or_pos i with rfl | hipos
    · rw [foldlM_error_of_nan _ _ (Or.inl ⟨hnan, htail⟩)]
      rfl
    · have hmem : (s.score c i, i) ∈
          (List.range k).map (fun j => (s.score c (j + 1), j + 1)) := by
        simp only [List.mem_map, List.mem_range]
        refine ⟨i - 1, by omega, ?_⟩
        have hi1 : i - 1 + 1 = i := by omega
        rw [hi1]
      rw [foldlM_error_of_nan _ _ (Or.inr ⟨(s.score c i, i), hmem, hnan⟩)]
      rfl

/-- C9 witness: a two-child node whose first child has a NaN prior (hence
a NaN score) makes selection panic. -/
def wNodeF : NodeStateF :=
  { value := .fin 0, is_terminal := false,
    children := [(1, ⟨.nan, false⟩, ⟨.fin 0, 0⟩), (2, ⟨.fin 0, false⟩, ⟨.fin 0, 0⟩)] }

theorem pick_next_move_f32_error_iff_witness :
    wNodeF.children ≠ [] ∧ wNodeF.pick_next_move (.fin 1) = .error () :=
  ⟨by decide, (pick_next_move_f32_error_iff wNodeF (.fin 1) (by decide)).mpr
    ⟨by decide, 0, by decide, by decide⟩⟩

/-- C9 counterexample: non-finite scores do NOT always panic. With two
children whose scores are `+∞` and `0`, the comparison succeeds and
selection returns child 0 normally; and a single-child node with a NaN
score is never compared, so selection returns normally as well —
contradicting the claim that selection never returns normally when some
score is non-finite. -/
def cexC9inf : NodeStateF :=
  { value := .fin 0, is_terminal := false,
    children := [(1, ⟨.inf true, false⟩, ⟨.fin 0, 1⟩), (2, ⟨.fin 0, false⟩, ⟨.fin 0, 0⟩)] }

def cexC9nan : NodeStateF :=
  { value := .fin 0, is_terminal := false,
    children := [(1, ⟨.nan, false⟩, ⟨.fin 0, 1⟩)] }

theorem pick_next_move_f32_nonfinite_no_panic :
    (cexC9inf.score (.fin 1) 0).isFinite = false ∧
    cexC9inf.pick_next_move (.fin 1) = .ok 0 ∧
    (cexC9nan.score (.fin 1) 0).isFinite = false ∧
    cexC9nan.pick_next_move (.fin 1) = .ok 0 := by
  have hr2 : List.range 2 = [0, 1] := rfl
  have hr1 : List.range 1 = [0] := rfl
  have hs0 : cexC9inf.score (.fin 1) 0 = .inf true := by
    rw [NodeStateF.score]
    norm_num [cexC9inf, childScoreF, NodeStateF.total_visits, sqrtNat,
      F32.mul, F32.div, F32.add]
  have hs1 : cexC9inf.score (.fin 1) 1 = .fin 0 := by
    rw [NodeStateF.score]
    norm_num [cexC9inf, childScoreF, NodeStateF.total_visits, sqrtNat,
      F32.mul, F32.div, F32.add]
  have hsn : cexC9nan.score (.fin 1) 0 = .nan := by
    rw [NodeStateF.score]
    norm_num [cexC9nan, childScoreF, NodeStateF.total_visits, sqrtNat,
      F32.mul, F32.div, F32.add]
  refine ⟨by rw [hs0]; rfl, ?_, by rw [hsn]; rfl, ?_⟩
  · rw [NodeStateF.pick_next_move, pickF_list_eq_scorePairs,
      show cexC9inf.children.length = 2 from rfl]
    simp only [scorePairs, hr2, List.map_cons, List.map_nil, pickFromPairsF,
      List.foldlM_cons, List.foldlM_nil]
    have hstep : maxByStepF (cexC9inf.score (.fin 1) 0, 0)
        (cexC9inf.score (.fin 1) 1, 1) = .ok (cexC9inf.score (.fin 1) 0, 0) := by
      unfold maxByStepF
      rw [show F32.pcmp (cexC9inf.score (.fin 1) 0) (cexC9inf.score (.fin 1) 1)
        = some Ordering.gt by rw [hs0, hs1]; rfl]
    rw [hstep]
    rfl
  · rw [NodeStateF.pick_next_move, pickF_list_eq_scorePairs,
      show cexC9nan.children.length = 1 from rfl]
    simp only [scorePairs, hr1, List.map_cons, List.map_nil, pickFromPairsF,
      List.foldlM_nil]
    rfl

/- ===================================================================
   C4: NetworkBatchedExecutor::serve — network_batched_executor.rs
   lines 73-188. A request is an (input, conduit id) pair: each cloned
   handle owns a private response conduit (the `Clone` impl at lines
   27-37 mints a fresh channel), so a conduit id identifies one
   requester. The external Model contract (spec section 6) is that
   `forward_t` maps the stacked batch row-wise: the oracle `f` gives row
   `i`'s output from input row `i`. Timing is abstracted: the claim's
   scenario "all requests arrive before the deadline" is modelled by
   feeding the arrivals list with no deadline event.
   =================================================================== -/

/-- The batch-closing drain (`while let Some((inp, send)) = buf.pop()`,
lines 151-154): `Vec::pop` takes from the end, so both `inputs` and
`responses` are the buffer reversed — consistently, keeping pairing. -/
def closeBatch {I : Type} (buf : List (I × Nat)) : List I × List Nat :=
  ((buf.map Prod.fst).reverse, (buf.map Prod.snd).reverse)

/-- One forward call over the closed batch plus the per-request delivery
loop (lines 156-171): run the row-wise Model once on the stacked inputs
and send row `i` to `responses[i]`. Returns the (conduit id, result)
deliveries. -/
def serveBatch {I V P : Type} (f : I → V × P) (buf : List (I × Nat)) :
    List (Nat × (V × P)) :=
  let ib := closeBatch buf
  ib.2.zip (ib.1.map f)

/-- The accumulation loop (lines 100-135) with the deadline arm elided:
consume arrivals into the buffer until it holds `maxBatch` requests
(checked before each receive, matching `buf.len() >= max_batch` after
each select arm); `none` when arrivals run out first (the deadline /
partial-batch path, outside this claim's scenario). Returns the closed
batch and the remaining arrivals. -/
def accumulate {I : Type} (m : Nat) :
    List (I × Nat) → List (I × Nat) → Option (List (I × Nat) × List (I × Nat))
  | [], buf => if m ≤ buf.length then some (buf, []) else none
  | a :: rest, buf =>
      if m ≤ buf.length then some (buf, a :: rest)
      else accumulate m rest (buf ++ [a])

/-- The serve cycle for one closed batch: accumulate then forward and
deliver. -/
def serveOnce {I V P : Type} (m : Nat) (f : I → V × P) (arrivals : List (I × Nat)) :
    Option (List (Nat × (V × P)) × List (I × Nat)) :=
  (accumulate m arrivals []).map (fun br => (serveBatch f br.1, br.2))

/-- The sequence of closed batches (one Model forward call each) produced
by the serve loop on a finite arrival stream, with fuel. -/
def forwardBatches {I : Type} (m : Nat) : Nat → List (I × Nat) → List (List (I × Nat))
  | 0, _ => []
  | fuel + 1, arrivals =>
      match accumulate m arrivals [] with
      | none => []
      | some (buf, rest) => buf :: forwardBatches m fuel rest

theorem accumulate_full {I : Type} (m : Nat) (arr : List (I × Nat)) :
    ∀ buf : List (I × Nat), buf.length + arr.length = m →
      accumulate m arr buf = some (buf ++ arr, []) := by
  induction arr with
  | nil =>
    intro buf h
    simp only [List.length_nil, Nat.add_zero] at h
    simp [accumulate, h.ge]
  | cons a rest ih =>
    intro buf h
    have hlt : ¬ m ≤ buf.length := by
      simp only [List.length_cons] at h
      omega
    simp only [accumulate, if_neg hlt]
    have hrec := ih (buf ++ [a]) (by simp only [List.length_append,
      List.length_cons, List.length_nil] at h ⊢; omega)
    rw [hrec]
    simp

/-- Every delivery pairs a conduit with the Model output of that
conduit's own input: `serveBatch` is the arrivals mapped through
`(conduit, f input)`, reversed (the drain order). -/
theorem serveBatch_eq {I V P : Type} (f : I → V × P) (l : List (I × Nat)) :
    serveBatch f l = (l.map (fun a => (a.2, f a.1))).reverse := by
  induction l with
  | nil => rfl
  | cons a t ih =>
    simp only [serveBatch, closeBatch, List.map_cons, List.reverse_cons,
      List.map_append, List.map_nil, List.map_reverse]
    rw [List.zip_append (by simp)]
    simp only [serveBatch, closeBatch, List.map_reverse] at ih
    rw [ih]
    simp

/-- C4: when exactly `max_batch` requests arrive before the deadline, the
scheduler closes exactly one batch — exactly one Model forward call —
containing exactly those requests, and each requester's conduit receives
the `(value, policy)` computed from that requester's own input, for every
arrival order (the statement quantifies over the arrivals list). -/
theorem serve_batch_pairing {I V P : Type} (f : I → V × P) (m : Nat)
    (arrivals : List (I × Nat)) (h1 : arrivals.length = m) (h2 : 0 < m) :
    forwardBatches m (m + 1) arrivals = [arrivals] ∧
    serveOnce m f arrivals
      = some ((arrivals.map (fun a => (a.2, f a.1))).reverse, []) := by
  have hacc : accumulate m arrivals [] = some (arrivals, []) := by
    have := accumulate_full m arrivals [] (by simpa using h1)
    simpa using this
  constructor
  · obtain ⟨k, hk⟩ : ∃ k, m = k + 1 := ⟨m - 1, by omega⟩
    rw [show m + 1 = (m : Nat) + 1 from rfl]
    simp only [forwardBatches, hacc]
    rw [hk]
    simp [forwardBatches, accumulate]
  · simp only [serveOnce, hacc, Option.map_some']
    rw [serveBatch_eq]

/-- C4 witness: two requests `(input 10, conduit 0)`, `(input 20,
conduit 1)` with `max_batch = 2` and Model `x ↦ (x + 1, 2x)`: one batch,
conduit 0 receives `(11, 20)` and conduit 1 receives `(21, 40)`. -/
theorem serve_batch_pairing_witness :
    (([((10 : Nat), 0), ((20 : Nat), 1)] : List (Nat × Nat)).length = 2 ∧ 0 < 2) ∧
    serveOnce 2 (fun x : Nat => (x + 1, 2 * x))
        ([((10 : Nat), 0), ((20 : Nat), 1)] : List (Nat × Nat))
      = some ([(1, (21, 40)), (0, (11, 20))], []) :=
  ⟨⟨rfl, by decide⟩, by
    rw [(serve_batch_pairing (fun x : Nat => (x + 1, 2 * x)) 2
      ([((10 : Nat), 0), ((20 : Nat), 1)] : List (Nat × Nat)) rfl (by decide)).2]
    rfl⟩

end AlphaZero
